import Mathlib

/-!
# Verification of the MVNO data-collector scrapers

This file gives a shallow embedding of the class-keyed text-extraction and
cross-page aggregation routines of the MVNO_Data_Collector repository and
proves the specification claims about them.

Embedded source functions (names follow the Python sources):

* `Wooriwonmobile/Wooriwonmobile_scrape.py`:
  `extract_text_grouped_by_css_class`, the detail-page crawl loop
  `crawl_detail_pages_and_collect_class_texts`, and the CSV writer
  `write_records_to_comma_separated_values_file` (shared logic with
  `Amobile/Amobile_scrape.py`, which differs only in its base columns).
* `Sugarmobile/Sugar_mobile_html.py`: `extract_class_aggregates`.
* `ShakeMoblie/ShakeMoblie_Scrape.py`: `collect_class_texts`, `normalize`.
* `Siwol_Mobile/siwol_scraper.py`: `squash_spaces`, `parse_classes_from_page`,
  `safe_join_texts`, and the wide/long CSV assembly in `main`.
* `Insmobile/insmobile_scrape.py`: `normalize_whitespace`, `safe_truncate`,
  `build_class_text_map`, `save_pages_as_class_columns_csv`.

HTML documents are modelled at the BeautifulSoup API boundary: a document is
the list of elements returned by `soup.find_all(...)` in document order; an
element carries the token list that `el.get("class")` returns (BeautifulSoup
splits the `class` attribute on whitespace) together with the list of its
descendant text-node strings, from which `el.get_text(" ", strip=True)` is
computed.  Python dicts (with insertion order) are modelled as association
lists, `collections.Counter` as a function `String → Nat`.
-/

namespace MVNO

/-! ## Python string primitives -/

/-- The characters Python's `str.strip()` and `\s` treat as whitespace,
modelled by `Char.isWhitespace`. -/
def wsChar (c : Char) : Bool := c.isWhitespace

/-- Python `str.strip()` on a character list: drop whitespace from both ends. -/
def stripChars (l : List Char) : List Char :=
  ((l.dropWhile wsChar).reverse.dropWhile wsChar).reverse

/-- Python `s.strip()`. -/
def pyStrip (s : String) : String := ⟨stripChars s.data⟩

/-- Python `re.sub(r"\s+", " ", ·)` on a character list: replace every maximal
whitespace run by a single space.  The boolean argument records whether the
previous character was whitespace (so that only the first character of a run
emits the space). -/
def collapseWsAux : Bool → List Char → List Char
  | _, [] => []
  | prevWs, c :: cs =>
    if wsChar c then
      if prevWs then collapseWsAux true cs
      else ' ' :: collapseWsAux true cs
    else c :: collapseWsAux false cs

/-- Python `re.sub(r"\s+", " ", ·)` on a character list. -/
def collapseWs (l : List Char) : List Char := collapseWsAux false l

/-- Python `re.sub(r"\s+", " ", s).strip()` — the whitespace normalizer that appears
as `squash_spaces` (Siwol), `normalize` (ShakeMobile) and
`normalize_whitespace` (Insmobile). -/
def normalizeWs (s : String) : String := ⟨stripChars (collapseWs s.data)⟩

/-- Python `sep.join(strs)` on character lists. -/
def joinChars (sep : List Char) : List (List Char) → List Char
  | [] => []
  | [x] => x
  | x :: xs => x ++ sep ++ joinChars sep xs

/-- Python `sep.join(strs)`. -/
def joinWith (sep : String) (l : List String) : String :=
  ⟨joinChars sep.data (l.map String.data)⟩

/-- BeautifulSoup `el.get_text(" ", strip=True)`: every descendant text node
is stripped, empty results are skipped, and the survivors are joined with a
single space. -/
def getTextStrip (fragments : List String) : String :=
  joinWith " " ((fragments.map pyStrip).filter (fun t => t != ""))

/-! ## Ordered-dictionary model (Python `dict` as an association list) -/

/-- Python `d.get(k)` for a `str → str` dict (a dict never holds duplicate
keys, so the first matching entry is the entry). -/
def lookupAssoc : List (String × String) → String → Option String
  | [], _ => none
  | p :: m, k => if p.1 == k then some p.2 else lookupAssoc m k

/-- Python `d.get(k)` for a `str → list[str]` dict. -/
def lookupTexts : List (String × List String) → String → Option (List String)
  | [], _ => none
  | p :: m, k => if p.1 == k then some p.2 else lookupTexts m k

/-- The list of contributions recorded for class `k`
(`d.get(k, [])` in Python). -/
def contribs (m : List (String × List String)) (k : String) : List String :=
  (lookupTexts m k).getD []

/-- Python `d.setdefault(k, []).append(t)` / `defaultdict(list)[k].append(t)`:
append `t` to key `k`'s list in place, creating the key at the end if
absent. -/
def addText : List (String × List String) → String → String →
    List (String × List String)
  | [], k, t => [(k, [t])]
  | p :: m, k, t =>
    if p.1 == k then (p.1, p.2 ++ [t]) :: m else p :: addText m k t

/-- Python `d[k] = v`: overwrite in place, or append the key if absent. -/
def dictAssign : List (String × String) → String → String →
    List (String × String)
  | [], k, v => [(k, v)]
  | p :: m, k, v =>
    if p.1 == k then (p.1, v) :: m else p :: dictAssign m k v

/-- Python `d.update(u)`: assign every item of `u` into `d` in order. -/
def dictUpdate (m upd : List (String × String)) : List (String × String) :=
  upd.foldl (fun d p => dictAssign d p.1 p.2) m

/-- The key list of a `str → list[str]` dict. -/
def keysOfTexts (m : List (String × List String)) : List String :=
  m.map Prod.fst

/-- The key list of a `str → str` dict. -/
def keysOf (m : List (String × String)) : List String :=
  m.map Prod.fst

/-! ## Documents -/

/-- One element of a parsed HTML document, at the BeautifulSoup boundary:
`classes` is the token list `el.get("class")` (the `class` attribute split on
whitespace), `fragments` the descendant text-node strings in document
order. -/
structure Element where
  classes : List String
  fragments : List String
deriving DecidableEq, Repr

/-- A parsed document: the elements found by `soup.find_all(...)`, in
document order. -/
abbrev Document := List Element

/-- Model of `el.get_text(" ", strip=True)` for an element of the model. -/
def elementText (e : Element) : String := getTextStrip e.fragments

/-! ## Wooriwonmobile: `extract_text_grouped_by_css_class` -/

/-- Model of `re.compile(r"^\s*$").search(s)` (the Wooriwon
`exclude_class_name_regular_expression`): the pattern matches exactly the
all-whitespace strings. -/
def matchesWsOnlyRe (s : String) : Bool := s.data.all wsChar

/-- The per-element class-token filter of
`extract_text_grouped_by_css_class`: each token of `el.get("class")` is
stripped, empty tokens and tokens matched by the exclusion regex are dropped
(the include regex is `None` in the source and imposes no condition). -/
def wooriwonElementTokens (e : Element) : List String :=
  e.classes.filterMap (fun c0 =>
    let c := pyStrip c0
    if c == "" then none
    else if matchesWsOnlyRe c then none
    else some c)

/-- The traversal loop of `extract_text_grouped_by_css_class` for a single
element: skip the element if no class token survives or its text is empty,
otherwise append the text to every surviving token's list. -/
def wooriwonStep (m : List (String × List String)) (e : Element) :
    List (String × List String) :=
  let toks := wooriwonElementTokens e
  if toks.isEmpty then m
  else
    let t := elementText e
    if t == "" then m
    else toks.foldl (fun m' c => addText m' c t) m

/-- The full traversal of `extract_text_grouped_by_css_class`, producing
`class_name_to_texts_mapping`. -/
def wooriwonCollect (doc : Document) : List (String × List String) :=
  doc.foldl wooriwonStep []

/-- The dedup loop of `extract_text_grouped_by_css_class`: strip each
contributed text, drop empties, and keep only first occurrences (the `seen`
set holds exactly the texts already kept). -/
def dedupNormalize (seen : List String) : List String → List String
  | [] => []
  | t :: ts =>
    let n := pyStrip t
    if n == "" then dedupNormalize seen ts
    else if seen.contains n then dedupNormalize seen ts
    else n :: dedupNormalize (seen ++ [n]) ts

/-- Deduplication keeping first occurrences, as `dict.fromkeys` /
`OrderedDict.fromkeys` perform it (used by ShakeMobile and Insmobile). -/
def dedupFirst (seen : List String) : List String → List String
  | [] => []
  | t :: ts =>
    if seen.contains t then dedupFirst seen ts
    else t :: dedupFirst (seen ++ [t]) ts

/-- Function `extract_text_grouped_by_css_class` of
`Wooriwonmobile/Wooriwonmobile_scrape.py`: collect texts per class token,
deduplicate each list and join with `" | "`. -/
def extract_text_grouped_by_css_class (doc : Document) :
    List (String × String) :=
  (wooriwonCollect doc).map (fun p => (p.1, joinWith " | " (dedupNormalize [] p.2)))

/-! ## Sugarmobile: `extract_class_aggregates`

`Sugar_mobile_html.py` runs with `AGGREGATE_MODE = "text"`.  Unlike the other
drivers it uses the *whole* class list, joined back with spaces, as a single
bucket key, and its dedup line (`lst = list(OrderedDict.fromkeys(lst))`) is
commented out, so contributions are joined without deduplication. -/

/-- One iteration of the `extract_class_aggregates` traversal. -/
def sugarStep (m : List (String × List String)) (e : Element) :
    List (String × List String) :=
  if e.classes.isEmpty then m
  else
    let key := joinWith " " e.classes
    let content := getTextStrip e.fragments
    if content == "" then m
    else addText m key content

/-- The `bucket` built by `extract_class_aggregates`. -/
def sugarCollect (doc : Document) : List (String × List String) :=
  doc.foldl sugarStep []

/-- Function `extract_class_aggregates` of `Sugarmobile/Sugar_mobile_html.py`
(text mode): join each bucket with `" | "`, without deduplication. -/
def extract_class_aggregates (doc : Document) : List (String × String) :=
  (sugarCollect doc).map (fun p => (p.1, joinWith " | " p.2))

/-! ## ShakeMobile: `collect_class_texts` -/

/-- The character class `[A-Za-z0-9_\-]` of the ShakeMobile token regex. -/
def shakeAllowedChar (c : Char) : Bool :=
  ('A' ≤ c && c ≤ 'Z') || ('a' ≤ c && c ≤ 'z') || ('0' ≤ c && c ≤ '9') ||
    c == '_' || c == '-'

/-- Model of Python `re.match(r"^[A-Za-z0-9_\-]+$", s)` being truthy: the
whole string is one or more allowed characters, or the same followed by one
trailing newline (Python's `$` also matches just before a final `"\n"`). -/
def shakeTokenMatches (s : String) : Bool :=
  (!s.data.isEmpty && s.data.all shakeAllowedChar) ||
    (match s.data.getLast? with
     | some c =>
        c == '\n' && (!s.data.dropLast.isEmpty &&
          s.data.dropLast.all shakeAllowedChar)
     | none => false)

/-- One iteration of the `collect_class_texts` traversal
(`TARGET_CLASSES = None` in the source, so that filter imposes nothing):
normalize the element text, skip the element if it is empty, and otherwise
append it to every class token accepted by the regex. -/
def shakeStep (m : List (String × List String)) (e : Element) :
    List (String × List String) :=
  let t := normalizeWs (getTextStrip e.fragments)
  if t == "" then m
  else e.classes.foldl
    (fun m' cls => if shakeTokenMatches cls then addText m' cls t else m') m

/-- Function `collect_class_texts` of `ShakeMoblie/ShakeMoblie_Scrape.py`:
traverse, then `" | ".join(dict.fromkeys(v))` per class. -/
def collect_class_texts (doc : Document) : List (String × String) :=
  (doc.foldl shakeStep []).map (fun p => (p.1, joinWith " | " (dedupFirst [] p.2)))

/-! ## Siwol Mobile: `parse_classes_from_page`, `safe_join_texts`, `main` -/

/-- One iteration of the `parse_classes_from_page` traversal: take
`el.get_text(" ", strip=True)`, skip the element if it is empty, apply
`squash_spaces`, then append to every class token. -/
def siwolStep (m : List (String × List String)) (e : Element) :
    List (String × List String) :=
  if e.classes.isEmpty then m
  else
    let text := getTextStrip e.fragments
    if text == "" then m
    else
      let t := normalizeWs text
      e.classes.foldl (fun m' cls => addText m' cls t) m

/-- Function `parse_classes_from_page` of `Siwol_Mobile/siwol_scraper.py`. -/
def parse_classes_from_page (doc : Document) : List (String × List String) :=
  doc.foldl siwolStep []

/-- Function `safe_join_texts` of `Siwol_Mobile/siwol_scraper.py`: keep appending
whole fragments while the running joined length stays within `max_len`,
stop (`break`) at the first fragment that would exceed it, and join the kept
fragments.  The source defaults are `sep=" | "`, `max_len=4000`. -/
def safe_join_texts_kept (sep : String) (maxLen : Nat)
    (out : List String) (currLen : Nat) : List String → List String
  | [] => out
  | t :: ts =>
    let add := (if out.isEmpty then "" else sep) ++ t
    if currLen + add.length > maxLen then out
    else safe_join_texts_kept sep maxLen (out ++ [t]) (currLen + add.length) ts

/-- Model of `safe_join_texts(texts, sep, max_len)`. -/
def safe_join_texts (texts : List String) (sep : String) (maxLen : Nat) :
    String :=
  joinWith sep (safe_join_texts_kept sep maxLen [] 0 texts)

/-- The default `max_len` of `safe_join_texts`. -/
def siwolDefaultMaxLen : Nat := 4000

/-- The outcome of `fetch(url)` in the Siwol `main` loop: the parsed page, or
the exception message `str(e)`. -/
inductive Fetched where
  | ok (doc : Document)
  | fail (msg : String)
deriving DecidableEq

/-- One entry of Siwol's `per_page_class_texts`: either the parsed class map
of a page (with `__url__` recorded alongside), or the error-marker dict
`{"__url__": url, "__error__": str(e)}`. -/
inductive SiwolEntry where
  | ok (url : String) (m : List (String × List String))
  | err (url : String) (msg : String)
deriving DecidableEq

/-- The `per_page_class_texts` accumulation of Siwol `main`, step 3: each URL
yields one entry, failures yield the error-marker entry. -/
def siwolEntries (inputs : List (String × Fetched)) : List SiwolEntry :=
  inputs.map (fun p =>
    match p.2 with
    | Fetched.ok doc => SiwolEntry.ok p.1 (parse_classes_from_page doc)
    | Fetched.fail msg => SiwolEntry.err p.1 msg)

/-- Python `s.startswith("__")`. -/
def startsWithDunder (s : String) : Bool :=
  match s.data with
  | '_' :: '_' :: _ => true
  | _ => false

/-- Python string comparison (`sorted`, `<`) on character lists:
lexicographic by code point. -/
def charListLe : List Char → List Char → Bool
  | [], _ => true
  | _ :: _, [] => false
  | a :: as, b :: bs =>
    if a.toNat < b.toNat then true
    else if b.toNat < a.toNat then false
    else charListLe as bs

/-- Python `s1 <= s2` on strings. -/
def strLe (a b : String) : Bool := charListLe a.data b.data

/-- Insertion into a sorted list, for the model of Python `sorted` /
`list.sort`. -/
def insertLe (le : String → String → Bool) (x : String) :
    List String → List String
  | [] => [x]
  | y :: ys => if le x y then x :: y :: ys else y :: insertLe le x ys

/-- Insertion sort: the model of Python `sorted(l)` / `l.sort(key=...)`
(for the total, antisymmetric comparisons used here the sorted result is
unique, so the choice of algorithm is immaterial). -/
def sortLe (le : String → String → Bool) : List String → List String
  | [] => []
  | x :: xs => insertLe le x (sortLe le xs)

/-- Siwol `main` step 4a:
`all_classes = sorted(c for c in all_classes if not c.startswith("__"))`.
The `all_classes` set collects the keys of successfully parsed pages only
(plus the `__url__` marker added to each), so it is modelled as the
first-occurrence dedup of those keys; failed pages contribute nothing. -/
def siwolAllClasses (entries : List SiwolEntry) : List String :=
  sortLe strLe
    ((dedupFirst []
      (entries.flatMap (fun entry =>
        match entry with
        | SiwolEntry.ok _ m => keysOfTexts m ++ ["__url__"]
        | SiwolEntry.err _ _ => []))).filter (fun c => !startsWithDunder c))

/-- One wide-CSV row of Siwol `main` step 4b: the `url` column, then for
each class column the `safe_join_texts` of that page's texts (`""` for the
`[]` default, and `""` for every class column of an error entry, whose dict
holds no list-valued class keys). -/
def siwolWideRow (classes : List String) (entry : SiwolEntry) :
    List (String × String) :=
  match entry with
  | SiwolEntry.ok url m =>
    ("url", url) ::
      classes.map (fun cls =>
        (cls, safe_join_texts ((lookupTexts m cls).getD []) " | " siwolDefaultMaxLen))
  | SiwolEntry.err url _ =>
    ("url", url) :: classes.map (fun cls => (cls, ""))

/-- The wide-CSV rows of Siwol `main` step 4. -/
def siwolWideRows (entries : List SiwolEntry) : List (List (String × String)) :=
  entries.map (siwolWideRow (siwolAllClasses entries))

/-- One long-CSV record of Siwol `main` step 5:
`(url, class_name, text_joined, count)`. -/
structure SiwolLongRec where
  url : String
  class_name : String
  text_joined : String
  count : Nat
deriving DecidableEq

/-- The long-CSV records of Siwol `main` step 5: an error entry yields the
single `__error__` marker record; a parsed page yields one record per
non-dunder class key with a non-empty text list. -/
def siwolLongRows (entries : List SiwolEntry) : List SiwolLongRec :=
  entries.flatMap (fun entry =>
    match entry with
    | SiwolEntry.err url msg => [⟨url, "__error__", msg, 0⟩]
    | SiwolEntry.ok url m =>
      (m.filter (fun p => !startsWithDunder p.1 && !p.2.isEmpty)).map
        (fun p => ⟨url, p.1, safe_join_texts p.2 " | " siwolDefaultMaxLen,
          p.2.length⟩))

/-! ## Insmobile: `safe_truncate`, `build_class_text_map`,
`save_pages_as_class_columns_csv` -/

/-- Function `safe_truncate(text, limit)` of `Insmobile/insmobile_scrape.py`:
`if limit and limit > 0 and len(text) > limit: return text[:limit] + "…"`.
`limit` is a Python int, so its truthiness is `limit ≠ 0`. -/
def safe_truncate (text : String) (limit : Int) : String :=
  if limit ≠ 0 ∧ limit > 0 ∧ (text.length : Int) > limit then
    ⟨text.data.take limit.toNat⟩ ++ "…"
  else text

/-- The module constant `MAX_TEXT_LENGTH_PER_CELL` of
`insmobile_scrape.py` (`0` would mean no limit). -/
def MAX_TEXT_LENGTH_PER_CELL : Int := 1000

/-- One iteration of the `build_class_text_map` traversal
(`SKIP_EMPTY_TEXT = True` in the source): normalize the element text, skip
empty texts, and append to every non-empty class token. -/
def insmobileStep (m : List (String × List String)) (e : Element) :
    List (String × List String) :=
  if e.classes.isEmpty then m
  else
    let t := normalizeWs (getTextStrip e.fragments)
    if t == "" then m
    else e.classes.foldl
      (fun m' cls => if cls == "" then m' else addText m' cls t) m

/-- Function `build_class_text_map` of `Insmobile/insmobile_scrape.py`, with the
length cap as a parameter (the source applies the module constant
`MAX_TEXT_LENGTH_PER_CELL`): per class, drop empty texts, deduplicate
keeping first occurrences (`dict.fromkeys`), join with `" | "`, then
truncate the joined value. -/
def build_class_text_map (maxLen : Int) (doc : Document) :
    List (String × String) :=
  (doc.foldl insmobileStep []).map (fun p =>
    (p.1, safe_truncate
      (joinWith " | " (dedupFirst [] (p.2.filter (fun t => t != ""))))
      maxLen))

/-- The class-name union of `save_pages_as_class_columns_csv` (a Python
set, modelled as a first-occurrence dedup; only membership matters, since
every use is behind `sorted` or a per-key lookup). -/
def insmobileAllClasses (pages : List (String × List (String × String))) :
    List String :=
  dedupFirst [] (pages.flatMap (fun p => keysOf p.2))

/-- The header `fieldnames = ["url"] + sorted(all_classes)` of
`save_pages_as_class_columns_csv`. -/
def insmobileFieldnames (pages : List (String × List (String × String))) :
    List String :=
  "url" :: sortLe strLe (insmobileAllClasses pages)

/-- The row dict of `save_pages_as_class_columns_csv`:
`row = {"url": url}` then `row[c] = class_map.get(c, "")` for every class. -/
def insmobileRowDict (classes : List String) (url : String)
    (m : List (String × String)) : List (String × String) :=
  classes.foldl (fun d cls => dictAssign d cls ((lookupAssoc m cls).getD ""))
    [("url", url)]

/-- Model of `csv.DictWriter` serialization: one value per field name, in field
order, with the `restval` default `""` for missing keys. -/
def serializeRow (fieldnames : List String) (row : List (String × String)) :
    List String :=
  fieldnames.map (fun c => (lookupAssoc row c).getD "")

/-- Function `save_pages_as_class_columns_csv` of `Insmobile/insmobile_scrape.py`:
the header line and the serialized rows, one per page in input order. -/
def save_pages_as_class_columns_csv
    (pages : List (String × List (String × String))) :
    List String × List (List String) :=
  let fieldnames := insmobileFieldnames pages
  (fieldnames,
    pages.map (fun p =>
      serializeRow fieldnames
        (insmobileRowDict (insmobileAllClasses pages) p.1 p.2)))

/-! ## Wooriwonmobile: crawl loop and CSV writer
(`Amobile/Amobile_scrape.py` duplicates both verbatim up to its base
columns, so they are modelled once, parameterized by the base columns). -/

/-- One card row collected from the listing pages (the identity metadata of
a detail page). -/
structure WooriwonListRow where
  plan_identifier : String
  network_path_segment : String
  detail_page_address : String
deriving DecidableEq

/-- The identity part of a detail-page record. -/
def wooriwonBaseRecord (r : WooriwonListRow) : List (String × String) :=
  [("plan_identifier", r.plan_identifier),
   ("network_path_segment", r.network_path_segment),
   ("detail_page_address", r.detail_page_address)]

/-- One iteration of the detail-page crawl: the navigation outcome for one
card row.  `fetched = none` models `page.goto` raising, upon which the
source logs a warning and `continue`s. -/
structure CrawlInput where
  row : WooriwonListRow
  fetched : Option Document
deriving DecidableEq

/-- The `Counter` update of the crawl loop: one increment per key of the page's
class map. -/
def counterBumpKeys (counter : String → Nat) (keys : List String) :
    String → Nat :=
  keys.foldl (fun f k => fun c => if c = k then f c + 1 else f c) counter

/-- The accumulating state of the crawl loop: `detail_page_records` and
`class_name_support_counter`. -/
abbrev CrawlState := List (List (String × String)) × (String → Nat)

/-- One iteration of `crawl_detail_pages_and_collect_class_texts`: a failed
navigation is skipped entirely; a fetched page is extracted, counted once
per class key, and appended as `base record ∪ class map`. -/
def crawlStep (st : CrawlState) (inp : CrawlInput) : CrawlState :=
  match inp.fetched with
  | none => st
  | some doc =>
    let m := extract_text_grouped_by_css_class doc
    (st.1 ++ [dictUpdate (wooriwonBaseRecord inp.row) m],
      counterBumpKeys st.2 (keysOf m))

/-- Function `crawl_detail_pages_and_collect_class_texts` of
`Wooriwonmobile/Wooriwonmobile_scrape.py`: fold the crawl step over the
collected list rows, starting from no records and the empty counter. -/
def crawl_detail_pages_and_collect_class_texts (inputs : List CrawlInput) :
    CrawlState :=
  inputs.foldl crawlStep ([], fun _ => 0)

/-- The base CSV columns of the Wooriwon writer. -/
def wooriwonBaseColumns : List String :=
  ["plan_identifier", "network_path_segment", "detail_page_address"]

/-- The base CSV columns of the Amobile writer (the only difference between
the two copies of `write_records_to_comma_separated_values_file`). -/
def amobileBaseColumns : List String :=
  ["carrier_label", "plan_identifier", "detail_page_uniform_resource_locator"]

/-- The module constant `minimum_class_support_threshold` (both files). -/
def minimum_class_support_threshold : Int := 2

/-- The set `all_class_column_candidates` of the writer: every record key outside
the base columns (a Python set; modelled as a first-occurrence dedup, and
proved order-irrelevant below). -/
def classColumnCandidates (base : List String)
    (records : List (List (String × String))) : List String :=
  dedupFirst [] ((records.flatMap keysOf).filter (fun k => !base.contains k))

/-- The support-threshold filter of the writer:
`if minimum_class_support_threshold and minimum_class_support_threshold > 1`
keep only candidates with `counter.get(c, 0) >= threshold`, else keep all. -/
def filteredClassColumns (threshold : Int) (counter : String → Nat)
    (cands : List String) : List String :=
  if threshold ≠ 0 ∧ threshold > 1 then
    cands.filter (fun c => (counter c : Int) ≥ threshold)
  else cands

/-- The writer's sort key
`lambda c: (-counter.get(c, 0), c)`: descending support count, ascending
name. -/
def colLe (counter : String → Nat) (a b : String) : Bool :=
  decide (counter b < counter a) || (decide (counter a = counter b) && strLe a b)

/-- The final CSV header of
`write_records_to_comma_separated_values_file`: base columns followed by the
filtered class columns sorted by the support key. -/
def writeRecordsHeader (base : List String) (threshold : Int)
    (records : List (List (String × String))) (counter : String → Nat) :
    List String :=
  base ++ sortLe (colLe counter)
    (filteredClassColumns threshold counter (classColumnCandidates base records))

/-- One CSV data row of the writer:
`[record.get(column, "") for column in header]`. -/
def writeRecordsRow (header : List String) (record : List (String × String)) :
    List String :=
  header.map (fun c => (lookupAssoc record c).getD "")

/-- Function `write_records_to_comma_separated_values_file` (Wooriwon and, with its
own base columns, Amobile): the header line and one data row per record, in
record order. -/
def write_records_to_comma_separated_values_file (base : List String)
    (threshold : Int) (records : List (List (String × String)))
    (counter : String → Nat) : List String × List (List String) :=
  let header := writeRecordsHeader base threshold records counter
  (header, records.map (writeRecordsRow header))

/-- The per-class document-support count determined by a batch of Insmobile
page maps, stated from the spec's definition of SupportCounter ("the count
of distinct documents in which that class appeared at least once"); used
only to compare the Insmobile header against the ordering the claim
asserts. -/
def insmobileSupportCount (pages : List (String × List (String × String)))
    (c : String) : Nat :=
  (pages.filter (fun p => p.2.any (fun q => q.1 == c))).length

/-- The header the spec's column-ordering sentence would predict for the
Insmobile writer: identity column, then classes sorted by descending
support count with ascending name as tiebreak.  Stated from the claim's
words, to be compared against `insmobileFieldnames`. -/
def specClaimedInsmobileHeader
    (pages : List (String × List (String × String))) : List String :=
  "url" :: sortLe (colLe (insmobileSupportCount pages)) (insmobileAllClasses pages)

/-! ## Generic fold lemmas -/

theorem foldlInvariant {α σ : Type} (P : σ → Prop) (f : σ → α → σ)
    (l : List α) (init : σ) (h0 : P init)
    (hstep : ∀ s a, a ∈ l → P s → P (f s a)) : P (l.foldl f init) := by
  induction l generalizing init with
  | nil => exact h0
  | cons a l ih =>
    exact ih (f init a) (hstep init a (by simp) h0)
      (fun s b hb hs => hstep s b (by simp [hb]) hs)

theorem foldl_eq_foldl_filter {α σ : Type} (f : σ → α → σ) (p : α → Bool)
    (l : List α) (init : σ) (h : ∀ s a, p a = false → f s a = s) :
    l.foldl f init = (l.filter p).foldl f init := by
  induction l generalizing init with
  | nil => rfl
  | cons a l ih =>
    by_cases hp : p a
    · simp only [List.foldl_cons, List.filter_cons, hp, if_pos trivial]
      exact ih (f init a)
    · simp only [List.foldl_cons, List.filter_cons,
        Bool.not_eq_true] at *
      rw [h init a (by simpa using hp), hp]
      exact ih init

/-! ## Dictionary lemmas -/

theorem contribs_addText (m : List (String × List String)) (k t k' : String) :
    contribs (addText m k t) k' =
      if k' = k then contribs m k' ++ [t] else contribs m k' := by
  induction m with
  | nil =>
    by_cases h : k' = k
    · subst h; simp [addText, contribs, lookupTexts]
    · have hkk : k ≠ k' := fun hh => h hh.symm
      simp [addText, contribs, lookupTexts, h, hkk]
  | cons p m ih =>
    by_cases hpk : p.1 = k
    · by_cases hk' : k' = k
      · subst hk'; simp [addText, contribs, lookupTexts, hpk]
      · have hkk : k ≠ k' := fun hh => hk' hh.symm
        simp [addText, contribs, lookupTexts, hpk, hk', hkk]
    · by_cases hpk' : p.1 = k'
      · have hk' : k' ≠ k := fun h => hpk (hpk'.trans h)
        simp [addText, contribs, lookupTexts, hpk, hpk', hk']
      · simp only [addText, beq_iff_eq, hpk, if_false]
        simp only [contribs, lookupTexts, beq_iff_eq, hpk', if_false]
        exact ih

theorem mem_keysOfTexts_addText (m : List (String × List String))
    (k t k' : String) :
    k' ∈ keysOfTexts (addText m k t) ↔ k' ∈ keysOfTexts m ∨ k' = k := by
  induction m with
  | nil => simp [addText, keysOfTexts]
  | cons p m ih =>
    by_cases hpk : p.1 = k
    · simp [addText, keysOfTexts, hpk]
      tauto
    · simp only [addText, beq_iff_eq, hpk, if_false]
      simp only [keysOfTexts, List.map_cons, List.mem_cons] at *
      tauto

theorem nodup_keysOfTexts_addText (m : List (String × List String))
    (k t : String) (h : (keysOfTexts m).Nodup) :
    (keysOfTexts (addText m k t)).Nodup := by
  induction m with
  | nil => simp [addText, keysOfTexts]
  | cons p m ih =>
    simp only [keysOfTexts, List.map_cons, List.nodup_cons] at h
    by_cases hpk : p.1 = k
    · simpa [addText, keysOfTexts, hpk, List.nodup_cons] using h
    · simp only [addText, beq_iff_eq, hpk, if_false]
      simp only [keysOfTexts, List.map_cons, List.nodup_cons]
      refine ⟨fun hmem => ?_, ih h.2⟩
      rcases (mem_keysOfTexts_addText m k t p.1).mp hmem with hm | he
      · exact h.1 hm
      · exact hpk he

theorem mem_addText_texts (m : List (String × List String)) (k t : String)
    {p : String × List String} (hp : p ∈ addText m k t) :
    p ∈ m ∨ (∃ q ∈ m, p = (q.1, q.2 ++ [t])) ∨ p = (k, [t]) := by
  induction m with
  | nil => simpa [addText] using hp
  | cons q m ih =>
    by_cases hqk : q.1 = k
    · simp only [addText, beq_iff_eq, hqk, if_true, List.mem_cons] at hp
      rcases hp with h | h
      · exact Or.inr (Or.inl ⟨q, List.mem_cons_self q m, by simp [hqk, h]⟩)
      · exact Or.inl (List.mem_cons_of_mem q h)
    · simp only [addText, beq_iff_eq, hqk, if_false, List.mem_cons] at hp
      rcases hp with h | h
      · exact Or.inl (h ▸ List.mem_cons_self q m)
      · rcases ih h with h' | ⟨q', hq', he⟩ | h'
        · exact Or.inl (List.mem_cons_of_mem q h')
        · exact Or.inr (Or.inl ⟨q', List.mem_cons_of_mem q hq', he⟩)
        · exact Or.inr (Or.inr h')

theorem lookupAssoc_mapValues (m : List (String × List String))
    (g : List String → String) (c : String) :
    lookupAssoc (m.map (fun p => (p.1, g p.2))) c =
      (lookupTexts m c).map g := by
  induction m with
  | nil => rfl
  | cons p m ih =>
    by_cases hpc : p.1 = c
    · simp [lookupAssoc, lookupTexts, hpc]
    · simp [lookupAssoc, lookupTexts, hpc, ih]

theorem lookupAssoc_eq_none_of_keys (m : List (String × String)) (c : String)
    (h : ∀ p ∈ m, p.1 ≠ c) : lookupAssoc m c = none := by
  induction m with
  | nil => rfl
  | cons p m ih =>
    have hp : p.1 ≠ c := h p (List.mem_cons_self p m)
    simp only [lookupAssoc, beq_iff_eq, hp, if_false]
    exact ih (fun q hq => h q (List.mem_cons_of_mem p hq))

theorem mem_keysOf_dictAssign (m : List (String × String)) (k v c : String) :
    c ∈ keysOf (dictAssign m k v) ↔ c ∈ keysOf m ∨ c = k := by
  induction m with
  | nil => simp [dictAssign, keysOf]
  | cons p m ih =>
    by_cases hpk : p.1 = k
    · simp [dictAssign, keysOf, hpk]
      tauto
    · simp only [dictAssign, beq_iff_eq, hpk, if_false]
      simp only [keysOf, List.map_cons, List.mem_cons] at *
      tauto

/-! ## Whitespace-stripping lemmas -/

/-- A character list neither starting nor ending with whitespace. -/
def noWsEnds (l : List Char) : Prop :=
  (∀ a, l.head? = some a → wsChar a = false) ∧
    (∀ a, l.getLast? = some a → wsChar a = false)

theorem head_dropWhile_not (p : Char → Bool) (l : List Char) :
    ∀ a, (l.dropWhile p).head? = some a → p a = false := by
  induction l with
  | nil => intro a h; simp at h
  | cons c t ih =>
    intro a h
    by_cases hc : p c
    · exact ih a (by simpa [List.dropWhile_cons, hc] using h)
    · rw [List.dropWhile_cons, if_neg (by simpa using hc)] at h
      simp only [List.head?] at h
      cases h
      simpa using hc

theorem dropWhile_eq_self_of_head (p : Char → Bool) (l : List Char)
    (h : ∀ a, l.head? = some a → p a = false) : l.dropWhile p = l := by
  cases l with
  | nil => rfl
  | cons a t => simp [List.dropWhile_cons, h a rfl]

theorem stripChars_noWsEnds (l : List Char) : noWsEnds (stripChars l) := by
  unfold stripChars
  constructor
  · intro a ha
    rw [List.head?_reverse] at ha
    set Y := (l.dropWhile wsChar).reverse with hY
    have hd : Y.takeWhile wsChar ++ Y.dropWhile wsChar = Y :=
      List.takeWhile_append_dropWhile wsChar Y
    have hne : Y.dropWhile wsChar ≠ [] := by
      intro hnil
      rw [hnil] at ha
      simp at ha
    have hY' : Y.getLast? = (Y.dropWhile wsChar).getLast? := by
      conv_lhs => rw [← hd]
      exact List.getLast?_append_of_ne_nil _ hne
    have hYlast : Y.getLast? = some a := hY' ▸ ha
    rw [hY, List.getLast?_reverse] at hYlast
    exact head_dropWhile_not wsChar l a hYlast
  · intro a ha
    rw [List.getLast?_reverse] at ha
    exact head_dropWhile_not wsChar _ a ha

theorem stripChars_eq_self (l : List Char) (h : noWsEnds l) :
    stripChars l = l := by
  unfold stripChars
  rw [dropWhile_eq_self_of_head wsChar l h.1]
  rw [dropWhile_eq_self_of_head wsChar l.reverse
    (fun a ha => h.2 a (by rwa [List.head?_reverse] at ha))]
  exact List.reverse_reverse l

theorem joinChars_ne_nil (sep : List Char) (y : List Char)
    (r : List (List Char)) (hy : y ≠ []) : joinChars sep (y :: r) ≠ [] := by
  cases r with
  | nil => simpa [joinChars] using hy
  | cons z r =>
    simp only [joinChars]
    intro h
    rcases List.append_eq_nil.mp h with ⟨h1, _⟩
    rcases List.append_eq_nil.mp h1 with ⟨h2, _⟩
    exact hy h2

theorem head_append_left (l₁ l₂ : List Char) (h : l₁ ≠ []) :
    (l₁ ++ l₂).head? = l₁.head? := by
  cases l₁ with
  | nil => exact absurd rfl h
  | cons c t => rfl

theorem joinChars_noWsEnds (sep : List Char) (xs : List (List Char))
    (h : ∀ x ∈ xs, x ≠ [] ∧ noWsEnds x) : noWsEnds (joinChars sep xs) := by
  induction xs with
  | nil => exact ⟨fun a ha => by simp [joinChars] at ha,
      fun a ha => by simp [joinChars] at ha⟩
  | cons x xs ih =>
    cases xs with
    | nil => exact (h x (by simp)).2
    | cons y r =>
      obtain ⟨hx, hxe⟩ := h x (by simp)
      have hrest : noWsEnds (joinChars sep (y :: r)) :=
        ih (fun z hz => h z (List.mem_cons_of_mem x hz))
      have hrne : joinChars sep (y :: r) ≠ [] :=
        joinChars_ne_nil sep y r (h y (by simp)).1
      constructor
      · intro a ha
        simp only [joinChars] at ha
        rw [List.append_assoc] at ha
        rw [head_append_left x _ hx] at ha
        exact hxe.1 a ha
      · intro a ha
        simp only [joinChars] at ha
        rw [List.append_assoc] at ha
        rw [List.getLast?_append_of_ne_nil _ (by
          intro hnil
          rcases List.append_eq_nil.mp hnil with ⟨_, h2⟩
          exact hrne h2)] at ha
        rw [List.getLast?_append_of_ne_nil _ hrne] at ha
        exact hrest.2 a ha

theorem str_ne_empty_iff (s : String) : s ≠ "" ↔ s.data ≠ [] := by
  rw [ne_eq, String.ext_iff]

theorem pyStrip_getTextStrip (frags : List String) :
    pyStrip (getTextStrip frags) = getTextStrip frags := by
  unfold pyStrip getTextStrip joinWith
  congr 1
  apply stripChars_eq_self
  apply joinChars_noWsEnds
  intro x hx
  obtain ⟨s, hs, hsx⟩ := List.mem_map.mp hx
  have hs' := List.mem_filter.mp hs
  obtain ⟨y, _, hy⟩ := List.mem_map.mp hs'.1
  have hsne : s ≠ "" := by simpa using hs'.2
  constructor
  · rw [← hsx]
    exact (str_ne_empty_iff s).mp hsne
  · rw [← hsx, ← hy]
    exact stripChars_noWsEnds y.data

theorem joinWith_ne_empty (sep : String) (x : String) (r : List String)
    (hx : x ≠ "") : joinWith sep (x :: r) ≠ "" := by
  rw [str_ne_empty_iff]
  exact joinChars_ne_nil sep.data x.data (r.map String.data)
    ((str_ne_empty_iff x).mp hx)

/-! ## Deduplication lemmas -/

theorem mem_dedupFirst (seen l : List String) (x : String)
    (h : x ∈ dedupFirst seen l) : x ∈ l ∧ x ∉ seen := by
  induction l generalizing seen with
  | nil => simp [dedupFirst] at h
  | cons t ts ih =>
    by_cases ht : seen.contains t
    · rw [dedupFirst, if_pos ht] at h
      obtain ⟨h1, h2⟩ := ih seen h
      exact ⟨List.mem_cons_of_mem t h1, h2⟩
    · rw [dedupFirst, if_neg ht] at h
      rcases List.mem_cons.mp h with rfl | h'
      · exact ⟨List.mem_cons_self x ts, by simpa using ht⟩
      · obtain ⟨h1, h2⟩ := ih (seen ++ [t]) h'
        refine ⟨List.mem_cons_of_mem t h1, fun hs => h2 ?_⟩
        exact List.mem_append_left [t] hs

theorem dedupFirst_nodup (seen l : List String) :
    (dedupFirst seen l).Nodup := by
  induction l generalizing seen with
  | nil => simp [dedupFirst]
  | cons t ts ih =>
    by_cases ht : seen.contains t
    · rw [dedupFirst, if_pos ht]
      exact ih seen
    · rw [dedupFirst, if_neg ht]
      refine List.nodup_cons.mpr ⟨fun hmem => ?_, ih (seen ++ [t])⟩
      have := (mem_dedupFirst (seen ++ [t]) ts t hmem).2
      exact this (List.mem_append_right seen (by simp))

theorem dedupFirst_sublist (seen l : List String) :
    List.Sublist (dedupFirst seen l) l := by
  induction l generalizing seen with
  | nil => simp [dedupFirst]
  | cons t ts ih =>
    by_cases ht : seen.contains t
    · rw [dedupFirst, if_pos ht]
      exact List.Sublist.cons t (ih seen)
    · rw [dedupFirst, if_neg ht]
      exact List.Sublist.cons₂ t (ih (seen ++ [t]))

theorem mem_dedupFirst_of_mem (seen l : List String) (x : String)
    (hx : x ∈ l) (hs : x ∉ seen) : x ∈ dedupFirst seen l := by
  induction l generalizing seen with
  | nil => simp at hx
  | cons t ts ih =>
    by_cases ht : seen.contains t
    · rw [dedupFirst, if_pos ht]
      rcases List.mem_cons.mp hx with rfl | hx'
      · exact absurd (by simpa using ht) hs
      · exact ih seen hx' hs
    · rw [dedupFirst, if_neg ht]
      rcases List.mem_cons.mp hx with rfl | hx'
      · exact List.mem_cons_self x _
      · by_cases hxt : x = t
        · exact hxt ▸ List.mem_cons_self t _
        · refine List.mem_cons_of_mem t (ih (seen ++ [t]) hx' ?_)
          intro hmem
          rcases List.mem_append.mp hmem with h | h
          · exact hs h
          · exact hxt (by simpa using h)

theorem dedupNormalize_eq_dedupFirst (seen l : List String) :
    dedupNormalize seen l =
      dedupFirst seen ((l.map pyStrip).filter (fun n => n != "")) := by
  induction l generalizing seen with
  | nil => simp [dedupNormalize, dedupFirst]
  | cons t ts ih =>
    simp only [dedupNormalize, List.map_cons, List.filter_cons]
    by_cases he : pyStrip t = ""
    · simp [he, ih seen]
    · simp [he, ih seen, ih (seen ++ [pyStrip t]), dedupFirst]

/-! ## Sorting lemmas -/

theorem insertLe_perm (le : String → String → Bool) (x : String)
    (l : List String) : List.Perm (insertLe le x l) (x :: l) := by
  induction l with
  | nil => exact List.Perm.refl _
  | cons y ys ih =>
    by_cases h : le x y
    · rw [insertLe, if_pos h]
    · rw [insertLe, if_neg h]
      exact (ih.cons y).trans (List.Perm.swap x y ys)

theorem sortLe_perm (le : String → String → Bool) (l : List String) :
    List.Perm (sortLe le l) l := by
  induction l with
  | nil => exact List.Perm.refl _
  | cons x xs ih => exact (insertLe_perm le x (sortLe le xs)).trans (ih.cons x)

theorem mem_sortLe (le : String → String → Bool) (l : List String)
    (x : String) : x ∈ sortLe le l ↔ x ∈ l :=
  (sortLe_perm le l).mem_iff

theorem insertLe_pairwise (le : String → String → Bool)
    (htot : ∀ a b, le a b = true ∨ le b a = true)
    (htr : ∀ a b c, le a b = true → le b c = true → le a c = true)
    (x : String) (l : List String)
    (hl : List.Pairwise (fun a b => le a b = true) l) :
    List.Pairwise (fun a b => le a b = true) (insertLe le x l) := by
  induction l with
  | nil => simp [insertLe]
  | cons y ys ih =>
    by_cases h : le x y
    · rw [insertLe, if_pos h]
      refine List.Pairwise.cons (fun z hz => ?_) hl
      rcases List.mem_cons.mp hz with rfl | hz'
      · exact h
      · exact htr x y z h (List.rel_of_pairwise_cons hl hz')
    · rw [insertLe, if_neg h]
      have hyx : le y x = true := (htot x y).resolve_left (by simpa using h)
      refine List.Pairwise.cons (fun z hz => ?_) (ih (List.Pairwise.sublist (List.sublist_cons_self y ys) hl))
      rcases List.mem_cons.mp ((insertLe_perm le x ys).mem_iff.mp hz) with rfl | hz'
      · exact hyx
      · exact List.rel_of_pairwise_cons hl hz'

theorem sortLe_pairwise (le : String → String → Bool)
    (htot : ∀ a b, le a b = true ∨ le b a = true)
    (htr : ∀ a b c, le a b = true → le b c = true → le a c = true)
    (l : List String) :
    List.Pairwise (fun a b => le a b = true) (sortLe le l) := by
  induction l with
  | nil => simp [sortLe]
  | cons x xs ih => exact insertLe_pairwise le htot htr x (sortLe le xs) ih

theorem sortLe_eq_of_perm (le : String → String → Bool)
    (htot : ∀ a b, le a b = true ∨ le b a = true)
    (htr : ∀ a b c, le a b = true → le b c = true → le a c = true)
    (hanti : ∀ a b, le a b = true → le b a = true → a = b)
    {l₁ l₂ : List String} (h : List.Perm l₁ l₂) :
    sortLe le l₁ = sortLe le l₂ := by
  haveI : IsAntisymm String (fun a b => le a b = true) := ⟨hanti⟩
  exact List.eq_of_perm_of_sorted
    ((sortLe_perm le l₁).trans (h.trans (sortLe_perm le l₂).symm))
    (sortLe_pairwise le htot htr l₁) (sortLe_pairwise le htot htr l₂)

/-! ## Properties of the string and column orders -/

theorem charListLe_cons_iff (a b : Char) (as bs : List Char) :
    charListLe (a :: as) (b :: bs) = true ↔
      a.toNat < b.toNat ∨ (a.toNat = b.toNat ∧ charListLe as bs = true) := by
  have hdef : charListLe (a :: as) (b :: bs) =
      (if a.toNat < b.toNat then true
       else if b.toNat < a.toNat then false else charListLe as bs) := rfl
  rw [hdef]
  by_cases h1 : a.toNat < b.toNat
  · simp only [if_pos h1, true_iff]
    exact Or.inl h1
  · by_cases h2 : b.toNat < a.toNat
    · rw [if_neg h1, if_pos h2]
      simp only [Bool.false_eq_true, false_iff]
      rintro (h | ⟨h, _⟩) <;> omega
    · rw [if_neg h1, if_neg h2]
      constructor
      · intro h
        exact Or.inr ⟨by omega, h⟩
      · rintro (h | ⟨_, h⟩)
        · omega
        · exact h

theorem charListLe_total : ∀ l m : List Char,
    charListLe l m = true ∨ charListLe m l = true
  | [], _ => Or.inl rfl
  | _ :: _, [] => Or.inr rfl
  | a :: as, b :: bs => by
    rcases Nat.lt_trichotomy a.toNat b.toNat with h | h | h
    · exact Or.inl ((charListLe_cons_iff a b as bs).mpr (Or.inl h))
    · rcases charListLe_total as bs with h' | h'
      · exact Or.inl ((charListLe_cons_iff a b as bs).mpr (Or.inr ⟨h, h'⟩))
      · exact Or.inr ((charListLe_cons_iff b a bs as).mpr (Or.inr ⟨h.symm, h'⟩))
    · exact Or.inr ((charListLe_cons_iff b a bs as).mpr (Or.inl h))

theorem charListLe_trans : ∀ l m n : List Char,
    charListLe l m = true → charListLe m n = true → charListLe l n = true
  | [], _, _, _, _ => rfl
  | _ :: _, [], _, h, _ => by cases h
  | _ :: _, _ :: _, [], _, h => by cases h
  | a :: as, b :: bs, c :: cs, h1, h2 => by
    rcases (charListLe_cons_iff a b as bs).mp h1 with hab | ⟨hab, hab'⟩ <;>
      rcases (charListLe_cons_iff b c bs cs).mp h2 with hbc | ⟨hbc, hbc'⟩
    · exact (charListLe_cons_iff a c as cs).mpr (Or.inl (by omega))
    · exact (charListLe_cons_iff a c as cs).mpr (Or.inl (by omega))
    · exact (charListLe_cons_iff a c as cs).mpr (Or.inl (by omega))
    · exact (charListLe_cons_iff a c as cs).mpr
        (Or.inr ⟨by omega, charListLe_trans as bs cs hab' hbc'⟩)

theorem charListLe_antisymm : ∀ l m : List Char,
    charListLe l m = true → charListLe m l = true → l = m
  | [], [], _, _ => rfl
  | [], _ :: _, _, h => by cases h
  | _ :: _, [], h, _ => by cases h
  | a :: as, b :: bs, h1, h2 => by
    rcases (charListLe_cons_iff a b as bs).mp h1 with hab | ⟨hab, hab'⟩ <;>
      rcases (charListLe_cons_iff b a bs as).mp h2 with hba | ⟨hba, hba'⟩
    · omega
    · omega
    · omega
    · have hc : a = b := Char.eq_of_val_eq (UInt32.toNat.inj hab)
      rw [hc, charListLe_antisymm as bs hab' hba']

theorem strLe_total (a b : String) : strLe a b = true ∨ strLe b a = true :=
  charListLe_total a.data b.data

theorem strLe_trans (a b c : String) (h1 : strLe a b = true)
    (h2 : strLe b c = true) : strLe a c = true :=
  charListLe_trans a.data b.data c.data h1 h2

theorem strLe_antisymm (a b : String) (h1 : strLe a b = true)
    (h2 : strLe b a = true) : a = b :=
  String.ext_iff.mpr (charListLe_antisymm a.data b.data h1 h2)

theorem colLe_total (cnt : String → Nat) (a b : String) :
    colLe cnt a b = true ∨ colLe cnt b a = true := by
  unfold colLe
  rcases Nat.lt_trichotomy (cnt a) (cnt b) with h | h | h
  · right; simp [h]
  · rcases strLe_total a b with h' | h' <;> [left; right] <;> simp [h, h']
  · left; simp [h]

theorem colLe_trans (cnt : String → Nat) (a b c : String)
    (h1 : colLe cnt a b = true) (h2 : colLe cnt b c = true) :
    colLe cnt a c = true := by
  unfold colLe at *
  simp only [Bool.or_eq_true, Bool.and_eq_true, decide_eq_true_eq] at *
  rcases h1 with h1 | ⟨h1, h1'⟩ <;> rcases h2 with h2 | ⟨h2, h2'⟩
  · exact Or.inl (by omega)
  · exact Or.inl (by omega)
  · exact Or.inl (by omega)
  · exact Or.inr ⟨by omega, strLe_trans a b c h1' h2'⟩

theorem colLe_antisymm (cnt : String → Nat) (a b : String)
    (h1 : colLe cnt a b = true) (h2 : colLe cnt b a = true) : a = b := by
  unfold colLe at *
  simp only [Bool.or_eq_true, Bool.and_eq_true, decide_eq_true_eq] at *
  rcases h1 with h1 | ⟨h1, h1'⟩ <;> rcases h2 with h2 | ⟨h2, h2'⟩
  · omega
  · omega
  · omega
  · exact strLe_antisymm a b h1' h2'

/-! ## Invariants of the collected text maps -/

/-- Invariant: every recorded contribution list is non-empty, and every
contributed text is a non-empty strip-fixed string. -/
def GoodTexts (m : List (String × List String)) : Prop :=
  ∀ p ∈ m, p.2 ≠ [] ∧ ∀ t ∈ p.2, t ≠ "" ∧ pyStrip t = t

theorem goodTexts_addText (m : List (String × List String)) (k t : String)
    (hm : GoodTexts m) (ht : t ≠ "") (hfix : pyStrip t = t) :
    GoodTexts (addText m k t) := by
  intro p hp
  rcases mem_addText_texts m k t hp with h | ⟨q, hq, rfl⟩ | rfl
  · exact hm p h
  · obtain ⟨_, hq2⟩ := hm q hq
    refine ⟨by simp, fun s hs => ?_⟩
    rcases List.mem_append.mp hs with h | h
    · exact hq2 s h
    · rw [List.mem_singleton.mp h]
      exact ⟨ht, hfix⟩
  · exact ⟨by simp, fun s hs => by rw [List.mem_singleton.mp hs]; exact ⟨ht, hfix⟩⟩

theorem goodTexts_wooriwonStep (m : List (String × List String)) (e : Element)
    (hm : GoodTexts m) : GoodTexts (wooriwonStep m e) := by
  unfold wooriwonStep
  by_cases h1 : (wooriwonElementTokens e).isEmpty
  · simpa [h1] using hm
  · rw [if_neg (by simpa using h1)]
    by_cases h2 : elementText e == ""
    · simpa [h2] using hm
    · rw [if_neg (by simpa using h2)]
      exact foldlInvariant GoodTexts _ _ m hm
        (fun s a _ hs => goodTexts_addText s a (elementText e) hs
          (by simpa using h2) (pyStrip_getTextStrip e.fragments))

theorem goodTexts_wooriwonCollect (doc : Document) :
    GoodTexts (wooriwonCollect doc) :=
  foldlInvariant GoodTexts wooriwonStep doc [] (fun p hp => by simp at hp)
    (fun s e _ hs => goodTexts_wooriwonStep s e hs)

theorem nodupKeys_wooriwonStep (m : List (String × List String)) (e : Element)
    (hm : (keysOfTexts m).Nodup) : (keysOfTexts (wooriwonStep m e)).Nodup := by
  unfold wooriwonStep
  by_cases h1 : (wooriwonElementTokens e).isEmpty
  · simpa [h1] using hm
  · rw [if_neg (by simpa using h1)]
    by_cases h2 : elementText e == ""
    · simpa [h2] using hm
    · rw [if_neg (by simpa using h2)]
      exact foldlInvariant (fun s => (keysOfTexts s).Nodup) _ _ m hm
        (fun s a _ hs => nodup_keysOfTexts_addText s a (elementText e) hs)

theorem nodupKeys_wooriwonCollect (doc : Document) :
    (keysOfTexts (wooriwonCollect doc)).Nodup :=
  foldlInvariant (fun s => (keysOfTexts s).Nodup) wooriwonStep doc []
    (by simp [keysOfTexts]) (fun s e _ hs => nodupKeys_wooriwonStep s e hs)

theorem keysOf_mapValues (m : List (String × List String))
    (g : List String → String) :
    keysOf (m.map (fun p => (p.1, g p.2))) = keysOfTexts m := by
  unfold keysOf keysOfTexts
  rw [List.map_map]
  rfl

/-! ## Fan-out step equations -/

theorem contribs_foldl_addText (toks : List String) (t : String)
    (m : List (String × List String)) (c : String) :
    contribs (toks.foldl (fun m' k => addText m' k t) m) c =
      contribs m c ++ List.replicate (toks.count c) t := by
  induction toks generalizing m with
  | nil => simp
  | cons t₀ rest ih =>
    rw [List.foldl_cons, ih (addText m t₀ t), contribs_addText]
    by_cases hc : c = t₀
    · subst hc
      rw [if_pos rfl, List.count_cons_self, List.replicate_succ,
        List.append_assoc]
      rfl
    · rw [if_neg hc, List.count_cons_of_ne (by simpa using hc)]

theorem contribs_wooriwonStep (m : List (String × List String)) (e : Element)
    (c : String) :
    contribs (wooriwonStep m e) c =
      contribs m c ++
        (if elementText e = "" then []
         else List.replicate ((wooriwonElementTokens e).count c) (elementText e)) := by
  unfold wooriwonStep
  by_cases h1 : (wooriwonElementTokens e).isEmpty
  · have htoks : wooriwonElementTokens e = [] := by simpa using h1
    simp [h1, htoks]
  · rw [if_neg (by simpa using h1)]
    by_cases h2 : elementText e = ""
    · simp [h2]
    · rw [if_neg (by simpa using h2), if_neg h2]
      exact contribs_foldl_addText _ _ m c

theorem contribs_sugarStep (m : List (String × List String)) (e : Element)
    (k : String) :
    contribs (sugarStep m e) k =
      contribs m k ++
        (if e.classes.isEmpty = true ∨ getTextStrip e.fragments = "" then []
         else if k = joinWith " " e.classes then [getTextStrip e.fragments]
         else []) := by
  unfold sugarStep
  by_cases h1 : e.classes.isEmpty
  · simp [h1]
  · rw [if_neg (by simpa using h1)]
    by_cases h2 : getTextStrip e.fragments = ""
    · simp [h1, h2]
    · rw [if_neg (by simpa using h2),
        if_neg (by simp [h1, h2]), contribs_addText]
      by_cases hk : k = joinWith " " e.classes
      · rw [if_pos hk, if_pos hk]
      · rw [if_neg hk, if_neg hk, List.append_nil]

/-! ## Support-counter lemmas -/

theorem counterBumpKeys_eq (keys : List String) (counter : String → Nat)
    (hnd : keys.Nodup) (c : String) :
    counterBumpKeys counter keys c =
      counter c + (if c ∈ keys then 1 else 0) := by
  induction keys generalizing counter with
  | nil => simp [counterBumpKeys]
  | cons k rest ih =>
    rw [List.nodup_cons] at hnd
    unfold counterBumpKeys at *
    rw [List.foldl_cons, ih _ hnd.2]
    by_cases hc : c = k
    · subst hc
      simp [hnd.1]
    · simp [hc, fun h : c = k => hc h]

theorem crawlState_counter_le (inputs : List CrawlInput) (st : CrawlState)
    (c : String) :
    (inputs.foldl crawlStep st).2 c ≤ st.2 c + inputs.length := by
  induction inputs generalizing st with
  | nil => simp
  | cons inp rest ih =>
    rw [List.foldl_cons]
    refine le_trans (ih (crawlStep st inp)) ?_
    have hstep : (crawlStep st inp).2 c ≤ st.2 c + 1 := by
      unfold crawlStep
      cases inp.fetched with
      | none => simp
      | some doc =>
        have hnd : (keysOf (extract_text_grouped_by_css_class doc)).Nodup := by
          unfold extract_text_grouped_by_css_class
          rw [keysOf_mapValues (wooriwonCollect doc)
            (fun l => joinWith " | " (dedupNormalize [] l))]
          exact nodupKeys_wooriwonCollect doc
        simp only
        rw [counterBumpKeys_eq _ _ hnd]
        by_cases hc : c ∈ keysOf (extract_text_grouped_by_css_class doc) <;>
          simp [hc]
    simp only [List.length_cons]
    omega

/-! ## Join-length lemmas (for the Siwol `safe_join_texts` analysis) -/

theorem joinWith_singleton (sep t : String) : joinWith sep [t] = t := by
  cases t
  rfl

theorem joinWith_cons_cons (sep x y : String) (r : List String) :
    joinWith sep (x :: y :: r) = x ++ sep ++ joinWith sep (y :: r) := by
  rw [String.ext_iff, String.data_append, String.data_append]
  rfl

theorem joinWith_append_singleton (sep : String) (out : List String)
    (t : String) :
    joinWith sep (out ++ [t]) =
      if out.isEmpty then t else joinWith sep out ++ sep ++ t := by
  induction out with
  | nil => simp [joinWith_singleton]
  | cons o out ih =>
    cases out with
    | nil => simp [joinWith_cons_cons, joinWith_singleton]
    | cons o2 rest =>
      simp only [List.cons_append] at *
      rw [joinWith_cons_cons, ih]
      simp only [List.isEmpty_cons, Bool.false_eq_true, if_false]
      rw [joinWith_cons_cons sep o o2 rest]
      simp [String.append_assoc]

theorem joinWith_length_le_append (sep : String) (l q : List String) :
    (joinWith sep l).length ≤ (joinWith sep (l ++ q)).length := by
  induction q generalizing l with
  | nil => simp
  | cons x q ih =>
    have h1 : (joinWith sep l).length ≤ (joinWith sep (l ++ [x])).length := by
      rw [joinWith_append_singleton]
      by_cases ho : l.isEmpty
      · have hout : l = [] := by simpa using ho
        subst hout
        simp only [List.isEmpty_nil, if_true]
        exact Nat.zero_le _
      · simp only [ho, Bool.false_eq_true, if_false]
        rw [String.length_append, String.length_append]
        omega
    have heq : l ++ x :: q = (l ++ [x]) ++ q := by
      rw [List.append_assoc]
      rfl
    rw [heq]
    exact le_trans h1 (ih (l ++ [x]))

theorem safe_join_texts_kept_spec (sep : String) (maxLen : Nat) :
    ∀ (ts out : List String) (currLen : Nat),
      currLen = (joinWith sep out).length → currLen ≤ maxLen →
      ∃ pre rest, ts = pre ++ rest ∧
        safe_join_texts_kept sep maxLen out currLen ts = out ++ pre ∧
        (joinWith sep (out ++ pre)).length ≤ maxLen ∧
        ∀ pre' rest', ts = pre' ++ rest' →
          (joinWith sep (out ++ pre')).length ≤ maxLen →
          pre'.length ≤ pre.length := by
  intro ts
  induction ts with
  | nil =>
    intro out currLen hlen hle
    refine ⟨[], [], rfl, (List.append_nil out).symm,
      by rw [List.append_nil, ← hlen]; exact hle, ?_⟩
    intro pre' rest' hsplit _
    have hnil : pre' = [] := (List.append_eq_nil.mp hsplit.symm).1
    simp [hnil]
  | cons t ts ih =>
    intro out currLen hlen hle
    have hjoin1 : currLen + ((if out.isEmpty then "" else sep) ++ t).length =
        (joinWith sep (out ++ [t])).length := by
      rw [joinWith_append_singleton]
      by_cases ho : out.isEmpty
      · have hout : out = [] := by simpa using ho
        subst hout
        simp only [ho, if_true]
        rw [String.length_append] at *
        simp only [hlen]
        have h0 : (joinWith sep ([] : List String)).length = 0 := rfl
        rw [h0]
        simp [String.length_append]
      · simp only [ho, Bool.false_eq_true, if_false]
        rw [String.length_append, String.length_append,
          String.length_append, hlen]
        omega
    unfold safe_join_texts_kept
    by_cases hbreak :
        currLen + ((if out.isEmpty then "" else sep) ++ t).length > maxLen
    · rw [if_pos hbreak]
      refine ⟨[], t :: ts, rfl, (List.append_nil out).symm,
        by rw [List.append_nil, ← hlen]; exact hle, ?_⟩
      intro pre' rest' hsplit' hlen'
      cases pre' with
      | nil => simp
      | cons t' p'' =>
        exfalso
        rw [List.cons_append] at hsplit'
        injection hsplit' with ht' hts
        subst ht'
        have heq : out ++ t :: p'' = (out ++ [t]) ++ p'' := by
          rw [List.append_assoc]
          rfl
        rw [heq] at hlen'
        have hmono := joinWith_length_le_append sep (out ++ [t]) p''
        omega
    · rw [if_neg hbreak]
      obtain ⟨pre₂, rest₂, hsplit₂, hkept₂, hbound₂, hmax₂⟩ :=
        ih (out ++ [t])
          (currLen + ((if out.isEmpty then "" else sep) ++ t).length)
          hjoin1 (by omega)
      refine ⟨t :: pre₂, rest₂, by rw [hsplit₂]; rfl, ?_, ?_, ?_⟩
      · rw [hkept₂, List.append_assoc]
        rfl
      · rw [List.append_assoc] at hbound₂
        simpa using hbound₂
      · intro pre' rest' hsplit' hlen'
        cases pre' with
        | nil => simp
        | cons t' p'' =>
          rw [List.cons_append] at hsplit'
          injection hsplit' with ht' hts
          subst ht'
          have heq : out ++ t :: p'' = (out ++ [t]) ++ p'' := by
            rw [List.append_assoc]
            rfl
          rw [heq] at hlen'
          have hle'' := hmax₂ p'' rest' hts hlen'
          simpa using Nat.succ_le_succ hle''

theorem safe_join_texts_spec (texts : List String) (sep : String)
    (maxLen : Nat) :
    ∃ pre rest, texts = pre ++ rest ∧
      safe_join_texts texts sep maxLen = joinWith sep pre ∧
      (joinWith sep pre).length ≤ maxLen ∧
      ∀ pre' rest', texts = pre' ++ rest' →
        (joinWith sep pre').length ≤ maxLen → pre'.length ≤ pre.length := by
  obtain ⟨pre, rest, hsplit, hkept, hbound, hmax⟩ :=
    safe_join_texts_kept_spec sep maxLen texts [] 0 rfl (Nat.zero_le _)
  refine ⟨pre, rest, hsplit, by rw [safe_join_texts, hkept]; rfl,
    by simpa using hbound, ?_⟩
  intro pre' rest' h1 h2
  exact hmax pre' rest' h1 (by simpa using h2)

/-! ## Row-dict key lemmas (for the Insmobile writer) -/

theorem mem_keysOf_foldl_dictAssign (classes : List String)
    (g : String → String) (d₀ : List (String × String)) (c : String) :
    c ∈ keysOf (classes.foldl (fun d cls => dictAssign d cls (g cls)) d₀) ↔
      c ∈ keysOf d₀ ∨ c ∈ classes := by
  induction classes generalizing d₀ with
  | nil => simp
  | cons cl rest ih =>
    rw [List.foldl_cons, ih]
    rw [mem_keysOf_dictAssign]
    simp only [List.mem_cons]
    tauto

/-! ## Claim theorems -/

/-- Claim C1 (isolate-and-continue): a document whose fetch fails never
disturbs the aggregation of the other documents.  In the Wooriwon crawl a
failed navigation (`fetched = none`) is skipped, so the crawl of a batch
containing it produces exactly the records and support counter of the batch
without it.  In the Siwol driver a failed fetch yields the error-marker
entry: the long-CSV rows are those of the surrounding documents unchanged
plus one `__error__` marker record, and the wide-CSV rows are built over the
same class-column set as the batch without the failing document, each
surviving document contributing the identical row. -/
theorem claim_C1_isolate_and_continue (ixs iys : List CrawlInput)
    (r : WooriwonListRow) (sxs sys : List (String × Fetched))
    (u msg : String) :
    crawl_detail_pages_and_collect_class_texts
        (ixs ++ { row := r, fetched := none } :: iys) =
      crawl_detail_pages_and_collect_class_texts (ixs ++ iys) ∧
    siwolLongRows (siwolEntries (sxs ++ (u, Fetched.fail msg) :: sys)) =
      siwolLongRows (siwolEntries sxs) ++
        ⟨u, "__error__", msg, 0⟩ :: siwolLongRows (siwolEntries sys) ∧
    siwolAllClasses (siwolEntries (sxs ++ (u, Fetched.fail msg) :: sys)) =
      siwolAllClasses (siwolEntries (sxs ++ sys)) ∧
    siwolWideRows (siwolEntries (sxs ++ (u, Fetched.fail msg) :: sys)) =
      (siwolEntries sxs).map
          (siwolWideRow (siwolAllClasses (siwolEntries (sxs ++ sys)))) ++
        siwolWideRow (siwolAllClasses (siwolEntries (sxs ++ sys)))
            (SiwolEntry.err u msg) ::
          (siwolEntries sys).map
            (siwolWideRow (siwolAllClasses (siwolEntries (sxs ++ sys)))) ∧
    siwolWideRows (siwolEntries (sxs ++ sys)) =
      (siwolEntries sxs).map
          (siwolWideRow (siwolAllClasses (siwolEntries (sxs ++ sys)))) ++
        (siwolEntries sys).map
          (siwolWideRow (siwolAllClasses (siwolEntries (sxs ++ sys)))) := by
  have hmapF : siwolEntries (sxs ++ (u, Fetched.fail msg) :: sys) =
      siwolEntries sxs ++ SiwolEntry.err u msg :: siwolEntries sys := by
    unfold siwolEntries
    rw [List.map_append, List.map_cons]
  have hmap2 : siwolEntries (sxs ++ sys) =
      siwolEntries sxs ++ siwolEntries sys := by
    unfold siwolEntries
    rw [List.map_append]
  have hclasses :
      siwolAllClasses (siwolEntries (sxs ++ (u, Fetched.fail msg) :: sys)) =
        siwolAllClasses (siwolEntries (sxs ++ sys)) := by
    unfold siwolAllClasses
    rw [hmapF, hmap2, List.flatMap_append, List.flatMap_cons,
      List.flatMap_append]
    rfl
  refine ⟨?_, ?_, hclasses, ?_, ?_⟩
  · unfold crawl_detail_pages_and_collect_class_texts
    rw [List.foldl_append, List.foldl_append, List.foldl_cons]
    rfl
  · unfold siwolLongRows
    rw [hmapF, List.flatMap_append, List.flatMap_cons]
    rfl
  · unfold siwolWideRows
    rw [hclasses, hmapF, List.map_append, List.map_cons]
  · unfold siwolWideRows
    rw [hmap2, List.map_append]

/-- Claim C4 (amended): in the Wooriwon extractor, an element whose text is
non-empty contributes that text to each of its surviving class tokens
exactly once per occurrence of the token — the `class` attribute's token
list is fanned out, token by token.  The Sugarmobile extractor deviates: it
uses the whole class list, joined back with spaces, as a single bucket key,
so the element's text goes to that one key only. -/
theorem claim_C4_amended (m : List (String × List String)) (e : Element)
    (c k : String) :
    contribs (wooriwonStep m e) c =
      contribs m c ++
        (if elementText e = "" then []
         else List.replicate ((wooriwonElementTokens e).count c)
           (elementText e)) ∧
    contribs (sugarStep m e) k =
      contribs m k ++
        (if e.classes.isEmpty = true ∨ getTextStrip e.fragments = "" then []
         else if k = joinWith " " e.classes then [getTextStrip e.fragments]
         else []) :=
  ⟨contribs_wooriwonStep m e c, contribs_sugarStep m e k⟩

/-- Claim C4 counterexample: for the element `<p class="a b">hello</p>` the
claim demands separate ClassTextMap entries for `a` and `b`; the Sugarmobile
extractor instead produces the single whole-attribute key `"a b"`, and
neither `a` nor `b` is a key. -/
theorem claim_C4_counterexample :
    extract_class_aggregates [⟨["a", "b"], ["hello"]⟩] = [("a b", "hello")] ∧
    lookupAssoc (extract_class_aggregates [⟨["a", "b"], ["hello"]⟩]) "a" =
      none ∧
    lookupAssoc (extract_class_aggregates [⟨["a", "b"], ["hello"]⟩]) "b" =
      none := by
  decide

/-- Claim C6: the support-threshold filter is monotone — for thresholds
`t1 < t2` the columns surviving `t2` form a sublist (hence a subset, of no
greater length) of those surviving `t1` — and any threshold ≤ 1 (including
0 and negative values, via Python truthiness) performs no filtering. -/
theorem claim_C6_threshold_monotone (counter : String → Nat)
    (cands : List String) :
    (∀ t1 t2 : Int, t1 < t2 →
      List.Sublist (filteredClassColumns t2 counter cands)
          (filteredClassColumns t1 counter cands) ∧
        (∀ c ∈ filteredClassColumns t2 counter cands,
          c ∈ filteredClassColumns t1 counter cands) ∧
        (filteredClassColumns t2 counter cands).length ≤
          (filteredClassColumns t1 counter cands).length) ∧
    (∀ t : Int, t ≤ 1 → filteredClassColumns t counter cands = cands) := by
  have hsimp : ∀ t : Int, filteredClassColumns t counter cands =
      if 1 < t then cands.filter (fun c => (counter c : Int) ≥ t)
      else cands := by
    intro t
    unfold filteredClassColumns
    by_cases h : 1 < t
    · rw [if_pos ⟨by omega, h⟩, if_pos h]
    · rw [if_neg (fun hc => h hc.2), if_neg h]
  constructor
  · intro t1 t2 hlt
    have hsub : List.Sublist (filteredClassColumns t2 counter cands)
        (filteredClassColumns t1 counter cands) := by
      rw [hsimp t1, hsimp t2]
      by_cases h2 : 1 < t2
      · by_cases h1 : 1 < t1
        · rw [if_pos h2, if_pos h1]
          refine List.monotone_filter_right cands (fun c hc => ?_)
          simp only [decide_eq_true_eq] at *
          omega
        · rw [if_pos h2, if_neg h1]
          exact List.filter_sublist cands
      · rw [if_neg h2, if_neg (by omega)]
    exact ⟨hsub, fun c hc => hsub.subset hc, hsub.length_le⟩
  · intro t ht
    rw [hsimp t, if_neg (by omega)]

/-- Claim C6 witness: Scenario C of the spec — with supports
`title = 2`, `desc = 1`, the columns surviving threshold 2 are a sublist of
those surviving threshold 1, and threshold 0 filters nothing. -/
theorem claim_C6_threshold_monotone_witness :
    List.Sublist
        (filteredClassColumns 2 (fun c => if c = "title" then 2 else 1)
          ["title", "desc"])
        (filteredClassColumns 1 (fun c => if c = "title" then 2 else 1)
          ["title", "desc"]) ∧
      filteredClassColumns 0 (fun c => if c = "title" then 2 else 1)
          ["title", "desc"] = ["title", "desc"] :=
  ⟨((claim_C6_threshold_monotone (fun c => if c = "title" then 2 else 1)
      ["title", "desc"]).1 1 2 (by decide)).1,
    (claim_C6_threshold_monotone (fun c => if c = "title" then 2 else 1)
      ["title", "desc"]).2 0 (by decide)⟩

/-- Claim C9: the support counter counts distinct documents.  Processing one
document bumps each class's count by exactly one when the class is a key of
that document's ClassTextMap and leaves it unchanged otherwise (no matter
how many elements carried the class); consequently the crawl counter is
bounded by the number of inputs processed, and each bump only increases
counts. -/
theorem claim_C9_support_counter :
    (∀ (counter : String → Nat) (doc : Document) (c : String),
      counterBumpKeys counter
          (keysOf (extract_text_grouped_by_css_class doc)) c =
        counter c +
          (if c ∈ keysOf (extract_text_grouped_by_css_class doc) then 1
           else 0)) ∧
    (∀ (counter : String → Nat) (doc : Document) (c : String),
      counter c ≤ counterBumpKeys counter
        (keysOf (extract_text_grouped_by_css_class doc)) c) ∧
    (∀ (inputs : List CrawlInput) (c : String),
      (crawl_detail_pages_and_collect_class_texts inputs).2 c ≤
        inputs.length) := by
  have hnd : ∀ doc : Document,
      (keysOf (extract_text_grouped_by_css_class doc)).Nodup := by
    intro doc
    unfold extract_text_grouped_by_css_class
    rw [keysOf_mapValues (wooriwonCollect doc)
      (fun l => joinWith " | " (dedupNormalize [] l))]
    exact nodupKeys_wooriwonCollect doc
  refine ⟨fun counter doc c => counterBumpKeys_eq _ counter (hnd doc) c,
    fun counter doc c => ?_, fun inputs c => ?_⟩
  · rw [counterBumpKeys_eq _ counter (hnd doc) c]
    omega
  · have := crawlState_counter_le inputs ([], fun _ => 0) c
    simpa using this

/-- Claim C3 (amended): in the Wooriwon extractor the joined value of every
class is the `" | "`-join of the first-occurrence deduplication of the
stripped non-empty contributed texts: the fragment list is duplicate-free, a
sublist of the normalized contributions (so document order is preserved),
and contains every surviving normalized contribution.  The Sugarmobile
extractor deviates: its dedup step is commented out and it joins the raw
contribution list, duplicates included. -/
theorem claim_C3_amended (doc : Document) (c : String) (texts : List String)
    (h : lookupTexts (wooriwonCollect doc) c = some texts) :
    lookupAssoc (extract_text_grouped_by_css_class doc) c =
      some (joinWith " | "
        (dedupFirst [] ((texts.map pyStrip).filter (fun n => n != "")))) ∧
    (dedupNormalize [] texts).Nodup ∧
    List.Sublist (dedupNormalize [] texts) (texts.map pyStrip) ∧
    (∀ t ∈ texts, pyStrip t ≠ "" → pyStrip t ∈ dedupNormalize [] texts) := by
  refine ⟨?_, ?_, ?_, ?_⟩
  · unfold extract_text_grouped_by_css_class
    rw [lookupAssoc_mapValues (wooriwonCollect doc)
      (fun l => joinWith " | " (dedupNormalize [] l)) c, h,
      Option.map_some', dedupNormalize_eq_dedupFirst]
  · rw [dedupNormalize_eq_dedupFirst]
    exact dedupFirst_nodup _ _
  · rw [dedupNormalize_eq_dedupFirst]
    exact (dedupFirst_sublist _ _).trans (List.filter_sublist _)
  · intro t ht hne
    rw [dedupNormalize_eq_dedupFirst]
    refine mem_dedupFirst_of_mem _ _ _ ?_ (by simp)
    exact List.mem_filter.mpr
      ⟨List.mem_map_of_mem pyStrip ht, by simpa using hne⟩

/-- Claim C3 witness: Scenario A of the spec — two `price` elements joined
in document order with `" | "`. -/
theorem claim_C3_amended_witness :
    lookupAssoc (extract_text_grouped_by_css_class
        [⟨["price"], ["38,200원"]⟩, ⟨["price"], ["할인가"]⟩]) "price" =
      some "38,200원 | 할인가" := by
  have h := (claim_C3_amended [⟨["price"], ["38,200원"]⟩, ⟨["price"], ["할인가"]⟩]
    "price" ["38,200원", "할인가"] (by decide)).1
  rw [h]
  decide

/-- Claim C3 counterexample: the Sugarmobile extractor keeps exact duplicate
fragments — two `price` elements with identical text `"x"` produce the
joined value `"x | x"`, not the deduplicated `"x"` the claim asserts. -/
theorem claim_C3_counterexample :
    extract_class_aggregates [⟨["price"], ["x"]⟩, ⟨["price"], ["x"]⟩] =
      [("price", "x | x")] ∧
    lookupTexts (sugarCollect [⟨["price"], ["x"]⟩, ⟨["price"], ["x"]⟩])
      "price" = some ["x", "x"] ∧
    ¬ (["x", "x"] : List String).Nodup ∧
    ("x | x" : String) ≠ joinWith " | " (dedupFirst [] ["x", "x"]) := by
  decide

/-- Claim C5 (amended): the Wooriwon/Amobile writer's header is the base
columns followed by the surviving class columns sorted by (descending
support count, ascending name); that class-column order is sorted under the
support key and is invariant under permutation of the candidate set (the
ordering is deterministic for fixed counts).  The Insmobile writer deviates:
its header is the `url` column followed by the class names sorted purely by
ascending name — also deterministic, but ignoring support counts. -/
theorem claim_C5_amended :
    (∀ (base : List String) (threshold : Int)
        (records : List (List (String × String))) (counter : String → Nat),
      writeRecordsHeader base threshold records counter =
        base ++ sortLe (colLe counter)
          (filteredClassColumns threshold counter
            (classColumnCandidates base records))) ∧
    (∀ (counter : String → Nat) (l : List String),
      List.Pairwise (fun a b => colLe counter a b = true)
        (sortLe (colLe counter) l)) ∧
    (∀ (counter : String → Nat) (l₁ l₂ : List String), List.Perm l₁ l₂ →
      sortLe (colLe counter) l₁ = sortLe (colLe counter) l₂) ∧
    (∀ pages : List (String × List (String × String)),
      insmobileFieldnames pages =
        "url" :: sortLe strLe (insmobileAllClasses pages)) ∧
    (∀ l : List String,
      List.Pairwise (fun a b => strLe a b = true) (sortLe strLe l)) ∧
    (∀ l₁ l₂ : List String, List.Perm l₁ l₂ →
      sortLe strLe l₁ = sortLe strLe l₂) := by
  refine ⟨fun _ _ _ _ => rfl, fun counter l => ?_, fun counter l₁ l₂ h => ?_,
    fun _ => rfl, fun l => ?_, fun l₁ l₂ h => ?_⟩
  · exact sortLe_pairwise _ (colLe_total counter)
      (fun a b c => colLe_trans counter a b c) l
  · exact sortLe_eq_of_perm _ (colLe_total counter)
      (fun a b c => colLe_trans counter a b c)
      (fun a b => colLe_antisymm counter a b) h
  · exact sortLe_pairwise _ strLe_total strLe_trans l
  · exact sortLe_eq_of_perm _ strLe_total strLe_trans strLe_antisymm h

/-- Claim C5 witness: both sort orders are permutation-invariant at a
concrete pair of candidate lists. -/
theorem claim_C5_amended_witness :
    sortLe (colLe (fun _ => 0)) ["b", "a"] =
        sortLe (colLe (fun _ => 0)) ["a", "b"] ∧
      sortLe strLe ["b", "a"] = sortLe strLe ["a", "b"] :=
  ⟨claim_C5_amended.2.2.1 (fun _ => 0) ["b", "a"] ["a", "b"] (by decide),
    claim_C5_amended.2.2.2.2.2 ["b", "a"] ["a", "b"] (by decide)⟩

/-- Claim C5 counterexample: with supports `a = 1`, `b = 2` the claim's
ordering (descending support, then name) puts `b` before `a`, but the
Insmobile writer sorts purely alphabetically and puts `a` first. -/
theorem claim_C5_counterexample :
    insmobileFieldnames
        [("u1", [("b", "x")]), ("u2", [("b", "y")]), ("u3", [("a", "z")])] =
      ["url", "a", "b"] ∧
    specClaimedInsmobileHeader
        [("u1", [("b", "x")]), ("u2", [("b", "y")]), ("u3", [("a", "z")])] =
      ["url", "b", "a"] ∧
    insmobileFieldnames
        [("u1", [("b", "x")]), ("u2", [("b", "y")]), ("u3", [("a", "z")])] ≠
      specClaimedInsmobileHeader
        [("u1", [("b", "x")]), ("u2", [("b", "y")]), ("u3", [("a", "z")])] := by
  decide

/-- Claim C7: in the Wooriwon extractor, elements with empty normalized text
contribute nothing (the extraction of a document equals the extraction of
the document with those elements removed); every value of the resulting
ClassTextMap is a non-empty string, so a class with no surviving
contribution is absent rather than mapped to `""`; and a document with no
classed elements yields the empty mapping. -/
theorem claim_C7_empty_text (doc : Document) :
    extract_text_grouped_by_css_class doc =
      extract_text_grouped_by_css_class
        (doc.filter (fun e => elementText e != "")) ∧
    (∀ p ∈ extract_text_grouped_by_css_class doc, p.2 ≠ "") ∧
    ((∀ e ∈ doc, e.classes = []) →
      extract_text_grouped_by_css_class doc = []) := by
  refine ⟨?_, ?_, ?_⟩
  · unfold extract_text_grouped_by_css_class wooriwonCollect
    rw [foldl_eq_foldl_filter wooriwonStep (fun e => elementText e != "")
      doc []]
    intro s e he
    have he' : elementText e = "" := by simpa using he
    unfold wooriwonStep
    by_cases h1 : (wooriwonElementTokens e).isEmpty
    · rw [if_pos h1]
    · rw [if_neg (by simpa using h1), if_pos (by simpa using he')]
  · intro p hp
    unfold extract_text_grouped_by_css_class at hp
    obtain ⟨q, hq, hfq⟩ := List.mem_map.mp hp
    obtain ⟨hqne, hqt⟩ := goodTexts_wooriwonCollect doc q hq
    rcases hq2 : q.2 with _ | ⟨t₀, rest⟩
    · exact absurd hq2 hqne
    · have ht₀ := hqt t₀ (by rw [hq2]; exact List.mem_cons_self t₀ rest)
      have hmem : t₀ ∈ dedupNormalize [] q.2 := by
        rw [dedupNormalize_eq_dedupFirst]
        refine mem_dedupFirst_of_mem _ _ _ ?_ (by simp)
        refine List.mem_filter.mpr ⟨?_, by simpa using ht₀.1⟩
        exact ht₀.2 ▸ List.mem_map_of_mem pyStrip
          (by rw [hq2]; exact List.mem_cons_self t₀ rest)
      rcases hd : dedupNormalize [] q.2 with _ | ⟨x, r⟩
      · rw [hd] at hmem
        simp at hmem
      · have hx : x ∈ dedupNormalize [] q.2 := by
          rw [hd]
          exact List.mem_cons_self x r
        have hxne : x ≠ "" := by
          rw [dedupNormalize_eq_dedupFirst] at hx
          have h1 := (mem_dedupFirst _ _ _ hx).1
          have h2 := List.mem_filter.mp h1
          simpa using h2.2
        have hv : p.2 = joinWith " | " (dedupNormalize [] q.2) := by
          rw [← hfq]
        rw [hv, hd]
        exact joinWith_ne_empty " | " x r hxne
  · intro hall
    have hcol : wooriwonCollect doc = [] := by
      refine foldlInvariant (fun s => s = []) wooriwonStep doc [] rfl ?_
      intro s e he hs
      subst hs
      have htoks : wooriwonElementTokens e = [] := by
        unfold wooriwonElementTokens
        rw [hall e he]
        rfl
      unfold wooriwonStep
      rw [htoks]
      rfl
    unfold extract_text_grouped_by_css_class
    rw [hcol]
    rfl

/-- Claim C7 witness: Scenario B — a document whose only element carries no
class yields the empty mapping. -/
theorem claim_C7_empty_text_witness :
    extract_text_grouped_by_css_class [⟨[], ["hi"]⟩] = [] :=
  (claim_C7_empty_text [⟨[], ["hi"]⟩]).2.2 (by decide)

/-- Claim C8 (amended): in the Insmobile driver the stored value of every
class is `safe_truncate` applied once to the `" | "`-joined deduplicated
fragments — and `safe_truncate` with a positive limit smaller than the text
length returns the first `limit` characters with the ellipsis marker
appended.  The Siwol `safe_join_texts` deviates from the claim: it keeps the
longest prefix of whole fragments whose joined length stays within
`max_len` — its result is the join of a prefix that fits within the cap,
and every split of the fragment list whose joined initial part also fits is
no longer than the kept prefix — drops the remaining fragments, and appends
no ellipsis; it never cuts inside a fragment. -/
theorem claim_C8_amended :
    (∀ (maxLen : Int) (doc : Document) (p : String × String),
      p ∈ build_class_text_map maxLen doc →
      ∃ texts : List String, p.2 =
        safe_truncate
          (joinWith " | " (dedupFirst [] (texts.filter (fun t => t != ""))))
          maxLen) ∧
    (∀ (text : String) (limit : Int), 0 < limit →
      limit < (text.length : Int) →
      safe_truncate text limit =
        String.mk (text.data.take limit.toNat) ++ "…") ∧
    (∀ (texts : List String) (sep : String) (maxLen : Nat),
      ∃ pre rest, texts = pre ++ rest ∧
        safe_join_texts texts sep maxLen = joinWith sep pre ∧
        (joinWith sep pre).length ≤ maxLen ∧
        ∀ pre' rest', texts = pre' ++ rest' →
          (joinWith sep pre').length ≤ maxLen →
          pre'.length ≤ pre.length) := by
  refine ⟨?_, ?_, safe_join_texts_spec⟩
  · intro maxLen doc p hp
    unfold build_class_text_map at hp
    obtain ⟨q, hq, hfq⟩ := List.mem_map.mp hp
    exact ⟨q.2, by rw [← hfq]⟩
  · intro text limit h1 h2
    unfold safe_truncate
    rw [if_pos ⟨by omega, h1, h2⟩]

/-- Claim C8 witness: Scenario E — `safe_truncate` with limit 5 on
`"abcdefgh"` yields `"abcde…"`, and the Siwol join at `max_len = 5` keeps
the longest prefix of the fragments whose joined length stays within the
cap. -/
theorem claim_C8_amended_witness :
    safe_truncate "abcdefgh" 5 = "abcde…" ∧
    (∃ pre rest, (["abcdefgh"] : List String) = pre ++ rest ∧
      safe_join_texts ["abcdefgh"] " | " 5 = joinWith " | " pre ∧
      (joinWith " | " pre).length ≤ 5 ∧
      ∀ pre' rest', (["abcdefgh"] : List String) = pre' ++ rest' →
        (joinWith " | " pre').length ≤ 5 → pre'.length ≤ pre.length) := by
  constructor
  · have h := claim_C8_amended.2.1 "abcdefgh" 5 (by decide) (by decide)
    rw [h]
    decide
  · exact claim_C8_amended.2.2 ["abcdefgh"] " | " 5

/-- Claim C8 counterexample: Siwol's `safe_join_texts` with `max_len = 5` on
the single fragment `"abcdefgh"` stores `""` — it drops the whole fragment —
whereas the claim demands the first five characters plus an ellipsis,
`"abcde…"` (which is what truncating the joined value would give). -/
theorem claim_C8_counterexample :
    safe_join_texts ["abcdefgh"] " | " 5 = "" ∧
    safe_truncate (joinWith " | " ["abcdefgh"]) 5 = "abcde…" ∧
    ("" : String) ≠ "abcde…" := by
  decide

/-- Claim C10: the ShakeMobile extractor silently drops every class token
not matching `^[A-Za-z0-9_\-]+$`.  For any document whose class tokens are
whitespace-free (as BeautifulSoup's attribute splitting guarantees), every
key of the resulting ClassTextMap is a non-empty string of characters from
`[A-Za-z0-9_-]`, and any token containing a character outside that set
(Korean characters, dots, colons, …) is absent from the map — its text is
lost for that class. -/
theorem claim_C10_shake_token_filter (doc : Document)
    (hws : ∀ e ∈ doc, ∀ c ∈ e.classes, ∀ ch ∈ c.data, wsChar ch = false) :
    (∀ p ∈ collect_class_texts doc,
      p.1 ≠ "" ∧ p.1.data.all shakeAllowedChar = true) ∧
    (∀ c : String, (∃ ch ∈ c.data, shakeAllowedChar ch = false) →
      lookupAssoc (collect_class_texts doc) c = none) := by
  have hinv : ∀ p ∈ doc.foldl shakeStep [],
      shakeTokenMatches p.1 = true ∧ ∀ ch ∈ p.1.data, wsChar ch = false := by
    refine foldlInvariant
      (fun m => ∀ p ∈ m,
        shakeTokenMatches p.1 = true ∧ ∀ ch ∈ p.1.data, wsChar ch = false)
      shakeStep doc [] (by simp) ?_
    intro s e he hs
    unfold shakeStep
    by_cases ht : normalizeWs (getTextStrip e.fragments) == ""
    · simpa [ht] using hs
    · rw [if_neg (by simpa using ht)]
      refine foldlInvariant
        (fun m => ∀ p ∈ m,
          shakeTokenMatches p.1 = true ∧ ∀ ch ∈ p.1.data, wsChar ch = false)
        _ e.classes s hs ?_
      intro s' cls hcls hs'
      by_cases hm : shakeTokenMatches cls
      · rw [if_pos hm]
        intro p hp
        rcases mem_addText_texts s' cls _ hp with h | ⟨q, hq, rfl⟩ | rfl
        · exact hs' p h
        · exact hs' q hq
        · exact ⟨hm, fun ch hch => hws e he cls hcls ch hch⟩
      · rw [if_neg hm]
        exact hs'
  have hkeys : ∀ p ∈ collect_class_texts doc,
      p.1 ≠ "" ∧ p.1.data.all shakeAllowedChar = true := by
    intro p hp
    unfold collect_class_texts at hp
    obtain ⟨q, hq, hfq⟩ := List.mem_map.mp hp
    obtain ⟨hmatch, hnw⟩ := hinv q hq
    have hp1 : p.1 = q.1 := by rw [← hfq]
    rw [hp1]
    unfold shakeTokenMatches at hmatch
    rw [Bool.or_eq_true] at hmatch
    rcases hmatch with h | h
    · rw [Bool.and_eq_true] at h
      refine ⟨?_, h.2⟩
      rw [str_ne_empty_iff]
      intro hnil
      rw [hnil] at h
      simp at h
    · exfalso
      rcases hlast : q.1.data.getLast? with _ | ch
      · rw [hlast] at h
        simp at h
      · rw [hlast] at h
        rw [Bool.and_eq_true] at h
        have hc : ch = '\n' := by simpa using h.1
        have hmem : ch ∈ q.1.data := by
          obtain ⟨hne, heq⟩ :=
            List.mem_getLast?_eq_getLast (l := q.1.data) (x := ch) hlast
          exact heq ▸ List.getLast_mem hne
        have hbad := hnw ch hmem
        rw [hc] at hbad
        simp [wsChar] at hbad
  refine ⟨hkeys, ?_⟩
  rintro c ⟨ch, hch, hbad⟩
  refine lookupAssoc_eq_none_of_keys _ _ (fun p hp hpc => ?_)
  obtain ⟨_, hall⟩ := hkeys p hp
  rw [List.all_eq_true] at hall
  have := hall ch (by rwa [hpc])
  rw [this] at hbad
  cases hbad

/-- Claim C10 witness: the Korean token `한글` is dropped while `price-box`
survives with its latin/digit/hyphen characters. -/
theorem claim_C10_shake_token_filter_witness :
    (("price-box" : String) ≠ "" ∧
      ("price-box" : String).data.all shakeAllowedChar = true) ∧
    lookupAssoc (collect_class_texts [⟨["한글", "price-box"], ["txt"]⟩])
      "한글" = none := by
  have h := claim_C10_shake_token_filter [⟨["한글", "price-box"], ["txt"]⟩]
    (by decide)
  exact ⟨h.1 ("price-box", "txt") (by decide), h.2 "한글" (by decide)⟩

/-- Claim C2: both writers produce a true tabular shape.  The Wooriwon
writer emits one data row per record, in record order; each row has exactly
one value per header column, with `record.get(column, "")` supplying `""`
for classes absent from that record.  The Insmobile writer likewise emits
one serialized row per page in page order, each of the width of the header,
and the key set of every page's row dict coincides exactly with the header's
field names. -/
theorem claim_C2_schema_rows :
    (∀ (base : List String) (threshold : Int)
        (records : List (List (String × String))) (counter : String → Nat),
      ((write_records_to_comma_separated_values_file base threshold records
          counter).2).length = records.length ∧
      (∀ row ∈ (write_records_to_comma_separated_values_file base threshold
          records counter).2,
        row.length = ((write_records_to_comma_separated_values_file base
          threshold records counter).1).length) ∧
      (write_records_to_comma_separated_values_file base threshold records
          counter).2 =
        records.map
          (writeRecordsRow (writeRecordsHeader base threshold records counter)) ∧
      (∀ (record : List (String × String)) (i : Nat),
        (writeRecordsRow (writeRecordsHeader base threshold records counter)
            record)[i]? =
          ((writeRecordsHeader base threshold records counter)[i]?).map
            (fun col => (lookupAssoc record col).getD ""))) ∧
    (∀ pages : List (String × List (String × String)),
      ((save_pages_as_class_columns_csv pages).2).length = pages.length ∧
      (∀ row ∈ (save_pages_as_class_columns_csv pages).2,
        row.length = ((save_pages_as_class_columns_csv pages).1).length) ∧
      (save_pages_as_class_columns_csv pages).2 =
        pages.map (fun p => serializeRow (insmobileFieldnames pages)
          (insmobileRowDict (insmobileAllClasses pages) p.1 p.2)) ∧
      (∀ p ∈ pages, ∀ c : String,
        c ∈ keysOf (insmobileRowDict (insmobileAllClasses pages) p.1 p.2) ↔
          c ∈ insmobileFieldnames pages)) := by
  constructor
  · intro base threshold records counter
    refine ⟨by simp [write_records_to_comma_separated_values_file], ?_, rfl,
      fun record i => List.getElem?_map _ _ _⟩
    intro row hrow
    simp only [write_records_to_comma_separated_values_file,
      List.mem_map] at hrow
    obtain ⟨r, _, hr⟩ := hrow
    rw [← hr]
    simp [writeRecordsRow, write_records_to_comma_separated_values_file,
      writeRecordsHeader]
  · intro pages
    refine ⟨by simp [save_pages_as_class_columns_csv], ?_, rfl, ?_⟩
    · intro row hrow
      simp only [save_pages_as_class_columns_csv, List.mem_map] at hrow
      obtain ⟨p, _, hp⟩ := hrow
      rw [← hp]
      simp [serializeRow, save_pages_as_class_columns_csv]
    · intro p _ c
      unfold insmobileRowDict insmobileFieldnames
      rw [mem_keysOf_foldl_dictAssign]
      simp only [keysOf, List.map_cons, List.map_nil, List.mem_singleton,
        List.mem_cons, mem_sortLe]
      tauto

/-- Claim C2 witness: a one-page Insmobile batch has one row and its row
dict's keys coincide with the field names. -/
theorem claim_C2_schema_rows_witness :
    ((save_pages_as_class_columns_csv [("u", [("a", "x")])]).2).length = 1 ∧
    ("a" ∈ keysOf (insmobileRowDict
        (insmobileAllClasses [("u", [("a", "x")])]) "u" [("a", "x")]) ↔
      "a" ∈ insmobileFieldnames [("u", [("a", "x")])]) := by
  refine ⟨?_, (claim_C2_schema_rows.2 [("u", [("a", "x")])]).2.2.2
    ("u", [("a", "x")]) (by decide) "a"⟩
  have h := (claim_C2_schema_rows.2 [("u", [("a", "x")])]).1
  simpa using h

end MVNO
